import Mathlib

/-!
# Verification of the pymusic_theory core

Shallow embedding of the repository's core modules:

* `theory.py` — `Note`, `Scale`, `TheoryMaster` (chromatic table, interval
  tables, `get_pitch`, `note_stream`, `invert`, `get_mode_intervals`);
* `instruments.py` — `Piano` and `Guitar` construction and `play`;
* `analysis.py` — `GuitarAnalyzer` (coordinates, distances, cross-product
  least-distance fingering optimizer, `get_equivalence_classes`).

Modelling conventions:

* Python `float` frequencies are idealised as real numbers (`ℝ`); the
  equal-temperament step `2 ** (1/12)` is the real `2 ^ (1/12 : ℝ)`.
* Python's `round(x, 0)` is modelled by `pyRound` (an integer rounding of a
  real).  Python rounds exact halves to even while Mathlib's `round` rounds
  halves up; no statement in this development evaluates `pyRound` at an exact
  half-integer, so the difference is never exercised.
* Python `dict`s are modelled as insertion-ordered association lists.  A
  lookup of key `q` finds the first stored key `k` with `hash(k) = hash(q)`
  and `k == q`.  For `Note` keys, `__hash__` is `hash((name, round(pitch)))`
  and `__eq__` compares rounded pitches, so — idealising the tuple hash as
  injective — a stored key matches a query exactly when both the names and
  the rounded pitches agree (`noteKeyMatch`).
* Code that raises (`list.index` → `ValueError`, `list.pop` on an empty
  list → `IndexError`, iterating `None` → `TypeError`, missing dict key →
  `KeyError`) is modelled with `Option`, `none` marking the raised exception.
-/

namespace PyMusic

/-! ## `theory.py`: constant tables -/

/-- `TheoryMaster.notes`: the 12-entry chromatic table. -/
def chromatic : List String :=
  ["C", "C#", "D", "Eb", "E", "F", "F#", "G", "G#", "A", "Bb", "B"]

/-- `TheoryMaster.modes`. -/
def modes : List String :=
  ["ionian", "dorian", "phrygian", "lydian", "mixolydian", "aeolian", "locrian"]

/-- `TheoryMaster.major_intervals` as initialised in `__init__`. -/
def majorIntervals : List ℤ := [2, 2, 1, 2, 2, 2, 1]

/-- `TheoryMaster.minor_intervals` as initialised in `__init__`. -/
def minorIntervals : List ℤ := [2, 1, 2, 2, 1, 2, 2]

/-- `TheoryMaster.dim_intervals` as initialised in `__init__`. -/
def dimIntervals : List ℤ := [2, 1, 2, 1, 2, 1, 2]

/-- Python `list.index`: index of the first occurrence, `none` modelling the
`ValueError` raised when the element is absent. -/
def pyIndex : List String → String → Option ℕ
  | [], _ => none
  | a :: t, x => if a = x then some 0 else (pyIndex t x).map (· + 1)

/-- `TheoryMaster.invert(intervals, n)`: `n` times, pop the head, add 12 and
append it at the end.  `none` models the `IndexError` that `pop(0)` raises on
an empty list. -/
def invert : List ℤ → ℕ → Option (List ℤ)
  | l, 0 => some l
  | [], _ + 1 => none
  | a :: t, n + 1 => invert (t ++ [a + 12]) n

/-- The mutable interval tables held by a `TheoryMaster` instance.  The
source mutates `major_intervals` in place (via `invert`), so the tables are
threaded explicitly as state. -/
structure TheoryState where
  major : List ℤ
  minor : List ℤ
  dim : List ℤ
  deriving DecidableEq, Repr

/-- The tables as `TheoryMaster.__init__` builds them. -/
def theoryInit : TheoryState :=
  ⟨majorIntervals, minorIntervals, dimIntervals⟩

/-- `TheoryMaster.get_mode_intervals(mode)`.  Returns the resulting list
together with the updated state: the source passes the stored
`major_intervals` list itself to the destructive `invert`, so after the call
the stored table *is* the returned list.  `none` models the `ValueError` for
an unknown mode. -/
def getModeIntervals (st : TheoryState) (mode : String) :
    Option (List ℤ × TheoryState) :=
  match pyIndex modes mode with
  | none => none
  | some i =>
    match invert st.major i with
    | none => none
    | some l => some (l, ⟨l, st.minor, st.dim⟩)

/-- `TheoryMaster.note_stream(starting_note, n)`, fully evaluated: the `n`
names the generator yields.  `none` models the `ValueError` raised by
`self.notes.index(starting_note)` on the first `next()`. -/
def noteStream (start : String) (n : ℕ) : Option (List String) :=
  (pyIndex chromatic start).map (fun i =>
    (List.range n).map (fun k => chromatic.getD ((i + k) % 12) ""))

/-! ## `theory.py`: pitch and notes -/

/-- `TheoryMaster.get_pitch(pitch, interval)`: the source computes
`((2 ** (1 / 12)) ** interval) * pitch`. -/
noncomputable def getPitch (pitch : ℝ) (interval : ℤ) : ℝ :=
  ((2 : ℝ) ^ ((1 : ℝ) / 12)) ^ interval * pitch

/-- Python `round(x, 0)` producing an integer.  (Python rounds exact halves
to even; nothing here evaluates at a half-integer.) -/
noncomputable def pyRound (x : ℝ) : ℤ := round x

/-- `theory.Note`: a name and a frequency in Hz. -/
structure Note where
  name : String
  pitch : ℝ

/-- `Note.__eq__`: equality of the rounded pitches, the name is ignored. -/
def noteEq (a b : Note) : Prop := pyRound a.pitch = pyRound b.pitch

/-- `Note.__hash__` is `hash((name, round(pitch, 0)))`; idealising the tuple
hash as injective, the hash value is modelled by the pair itself. -/
noncomputable def noteHash (a : Note) : String × ℤ := (a.name, pyRound a.pitch)

/-- A stored dict key `k` matches a query `q` when their hashes agree and
`k == q`; with `noteHash` and `noteEq` this is: equal names and equal rounded
pitches. -/
def noteKeyMatch (k q : Note) : Prop :=
  k.name = q.name ∧ pyRound k.pitch = pyRound q.pitch

open Classical in
/-- `dict.get` on a `Note`-keyed dict modelled as an association list:
first stored entry whose key matches the query, `none` when no key does. -/
noncomputable def noteDictGet {V : Type} : List (Note × V) → Note → Option V
  | [], _ => none
  | (k, v) :: t, q => if noteKeyMatch k q then some v else noteDictGet t q

/-! ## `instruments.py` -/

open Classical in
/-- The multimap update in `Guitar._initiate`: `if note not in self.notes:
self.notes[note] = [position] else: self.notes[note].append(position)`.
Insertion order is preserved; the first-inserted key of a class is kept. -/
noncomputable def noteDictInsert :
    List (Note × List ℕ) → Note → ℕ → List (Note × List ℕ)
  | [], k, p => [(k, [p])]
  | (k0, v0) :: t, k, p =>
    if noteKeyMatch k0 k then (k0, v0 ++ [p]) :: t
    else (k0, v0) :: noteDictInsert t k p

open Classical in
/-- The dict assignment in `Piano._initiate`: `self.notes[note] = i`
(replace the value when a key matches, else append the new entry). -/
noncomputable def noteDictSet :
    List (Note × ℕ) → Note → ℕ → List (Note × ℕ)
  | [], k, v => [(k, v)]
  | (k0, v0) :: t, k, v =>
    if noteKeyMatch k0 k then (k0, v) :: t
    else (k0, v0) :: noteDictSet t k v

/-- The `(position, note)` pairs one string contributes in
`Guitar._initiate`: for string index `s` whose open note has chromatic index
`i` and pitch `p`, the pair `(s * frets + fret, note)` for every
`fret ∈ [0, frets)`; the note's name advances `fret` chromatic steps and its
pitch is `get_pitch(p, fret)`. -/
noncomputable def blockList (frets s i : ℕ) (p : ℝ) : List (ℕ × Note) :=
  (List.range frets).map (fun f =>
    (s * frets + f,
      ⟨chromatic.getD ((i + f) % 12) "", getPitch p (f : ℤ)⟩))

/-- One string of `Guitar._initiate`; `none` models the `ValueError` from
`theory.notes.index` on an unknown open-string name. -/
noncomputable def stringBlock (frets s : ℕ) (t : Note) :
    Option (List (ℕ × Note)) :=
  (pyIndex chromatic t.name).map (fun i => blockList frets s i t.pitch)

/-- The full loop of `Guitar._initiate` over `enumerate(self.tuning)`,
accumulating the `strings` assignments in iteration order. -/
noncomputable def guitarStringsGo (frets : ℕ) :
    ℕ → List Note → Option (List (ℕ × Note))
  | _, [] => some []
  | s, t :: ts =>
    match stringBlock frets s t, guitarStringsGo frets (s + 1) ts with
    | some b, some r => some (b ++ r)
    | _, _ => none

/-- The `strings` dict of a guitar (position → note), as an association list
in assignment order.  Positions are pairwise distinct, so first-match lookup
is exact dict semantics. -/
noncomputable def guitarStrings (frets : ℕ) (tuning : List Note) :
    Option (List (ℕ × Note)) :=
  guitarStringsGo frets 0 tuning

/-- The `notes` multimap of a guitar, built by folding the dict update of
`Guitar._initiate` over the `(position, note)` pairs in loop order. -/
noncomputable def buildNotes (pairs : List (ℕ × Note)) : List (Note × List ℕ) :=
  pairs.foldl (fun m pn => noteDictInsert m pn.2 pn.1) []

/-- The state a constructed `Guitar` (or `GuitarAnalyzer`) holds. -/
structure GuitarState where
  frets : ℕ
  strings : List (ℕ × Note)
  notes : List (Note × List ℕ)

/-- `Guitar.__init__` (via `_initiate`); `none` models a `ValueError` escaping
the constructor when some tuning entry's name is not in the chromatic table. -/
noncomputable def guitarInit (frets : ℕ) (tuning : List Note) :
    Option GuitarState :=
  (guitarStrings frets tuning).map (fun ps => ⟨frets, ps, buildNotes ps⟩)

/-- The default standard tuning of `Guitar.__init__`. -/
noncomputable def stdTuning : List Note :=
  [⟨"E", 82.41⟩, ⟨"A", 110.00⟩, ⟨"D", 146.83⟩,
   ⟨"G", 196.00⟩, ⟨"B", 246.94⟩, ⟨"E", 329.63⟩]

/-- Lookup in an integer-keyed dict (`self.strings`): first entry with the
queried key, `none` modelling a `KeyError`. -/
def intDictGet : List (ℕ × Note) → ℕ → Option Note
  | [], _ => none
  | (k, v) :: t, q => if k = q then some v else intDictGet t q

/-- `play` of either instrument: `[self.notes.get(note) for note in notes]`. -/
noncomputable def notesPlay {V : Type} (m : List (Note × V)) (ns : List Note) :
    List (Option V) :=
  ns.map (noteDictGet m)

/-- `Guitar.play(notes)`. -/
noncomputable def guitarPlay (g : GuitarState) (ns : List Note) :
    List (Option (List ℕ)) :=
  notesPlay g.notes ns

/-- The state a constructed `Piano` holds. -/
structure PianoState where
  keys : List (ℕ × Note)
  notes : List (Note × ℕ)

/-- The loop body of `Piano._initiate` over the enumerated name stream:
at index 0 the low note itself is used, afterwards each step's note takes the
streamed name and the previous pitch advanced by one semitone. -/
noncomputable def pianoLoop :
    List String → Note → ℕ → List (ℕ × Note) → List (Note × ℕ) →
      List (ℕ × Note) × List (Note × ℕ)
  | [], _, _, keys, notes => (keys, notes)
  | name :: rest, cur, i, keys, notes =>
    let note : Note := if i = 0 then cur else ⟨name, getPitch cur.pitch 1⟩
    pianoLoop rest note (i + 1) (keys ++ [(i, note)]) (noteDictSet notes note i)

/-- `Piano.__init__` (via `_initiate`); `none` models the `ValueError` raised
by `note_stream` when the low note's name is not in the chromatic table. -/
noncomputable def pianoInit (numKeys : ℕ) (low : Note) : Option PianoState :=
  (noteStream low.name numKeys).map (fun names =>
    let r := pianoLoop names low 0 [] []
    ⟨r.1, r.2⟩)

/-- `Piano.play(notes)`. -/
noncomputable def pianoPlay (p : PianoState) (ns : List Note) :
    List (Option ℕ) :=
  notesPlay p.notes ns

/-! ## `theory.py`: `Scale.generate_scale` -/

/-- The loop of `Scale.generate_scale` over `self.intervals[:-1]`, carrying
the current note and the current chromatic index (Python's `%` on a possibly
negative index is `Int.emod`). -/
noncomputable def scaleLoop :
    List ℤ → Note → ℤ → List Note → List Note
  | [], _, _, acc => acc
  | interval :: rest, cur, idx, acc =>
    let idx2 := idx + interval
    let nxt : Note := ⟨chromatic.getD (idx2.emod 12).toNat "",
      getPitch cur.pitch interval⟩
    scaleLoop rest nxt idx2 (acc ++ [nxt])

/-- `Scale.__init__` / `generate_scale`: the `notes` list of the scale;
`none` models the `ValueError` from `theory.notes.index(base_note.name)`. -/
noncomputable def generateScale (base : Note) (intervals : List ℤ) :
    Option (List Note) :=
  (pyIndex chromatic base.name).map (fun i0 =>
    scaleLoop intervals.dropLast base (i0 : ℤ) [base])

/-! ## `analysis.py`: `GuitarAnalyzer` -/

/-- `GuitarAnalyzer.get_coordinates(position)`. -/
def getCoordinates (frets p : ℕ) : ℕ × ℕ := (p / frets, p % frets)

/-- `GuitarAnalyzer.euclidean_distance(point1, point2)`. -/
noncomputable def euclideanDistance (p1 p2 : ℕ × ℕ) : ℝ :=
  Real.sqrt (((p2.1 : ℝ) - (p1.1 : ℝ)) ^ 2 + ((p2.2 : ℝ) - (p1.2 : ℝ)) ^ 2)

/-- `GuitarAnalyzer.compute_distance(position_1, position_2)`: Euclidean
distance between the `(position // frets + 1, position % frets)` coordinate
pairs. -/
noncomputable def computeDistance (frets p1 p2 : ℕ) : ℝ :=
  euclideanDistance (p1 / frets + 1, p1 % frets) (p2 / frets + 1, p2 % frets)

/-- The total distance of a candidate combination: the sum of
`compute_distance(combination[i], combination[i+1])` over consecutive pairs. -/
noncomputable def totalDistance (frets : ℕ) (comb : List ℕ) : ℝ :=
  ((comb.zip comb.tail).map (fun pq => computeDistance frets pq.1 pq.2)).sum

/-- `itertools.product(*positions_list)` in its enumeration order (the last
factor varies fastest). -/
def pyProduct {α : Type} : List (List α) → List (List α)
  | [] => [[]]
  | l :: ls => l.flatMap (fun x => (pyProduct ls).map (fun r => x :: r))

open Classical in
/-- The selection loop of `compute_least_distance_combination`: the
accumulator holds `(least_distance, least_distance_combination)`, `none`
standing for the initial `(inf, None)`; a combination replaces the best one
only when its total is strictly smaller (any real is `< inf`). -/
noncomputable def pyMinLoop {α : Type} (f : α → ℝ) :
    Option (ℝ × α) → List α → Option (ℝ × α)
  | acc, [] => acc
  | none, c :: cs => pyMinLoop f (some (f c, c)) cs
  | some (lst, b), c :: cs =>
    if f c < lst then pyMinLoop f (some (f c, c)) cs
    else pyMinLoop f (some (lst, b)) cs

/-- `GuitarAnalyzer.compute_least_distance_combination(positions_list)`:
`none` is the `None` returned when the cross-product is empty. -/
noncomputable def computeLeastDistanceCombination
    (frets : ℕ) (pl : List (List ℕ)) : Option (List ℕ) :=
  (pyMinLoop (totalDistance frets) none (pyProduct pl)).map (fun x => x.2)

/-- `GuitarAnalyzer.get_finger_combination(positions)`, fully consumed:
`some` of the coordinate list when a least-distance combination exists;
`none` models the `TypeError` raised when the generator body iterates over a
`None` result of `compute_least_distance_combination`. -/
noncomputable def getFingerCombination (frets : ℕ) (pl : List (List ℕ)) :
    Option (List (ℕ × ℕ)) :=
  (computeLeastDistanceCombination frets pl).map
    (fun comb => comb.map (getCoordinates frets))

/-- The intermediate `positions` list of `get_equivalence_classes`: for each
target note, the position lists of the stored equivalence classes whose key's
*name* equals the target's name (dict iteration in insertion order). -/
def candidateClasses (g : GuitarState) (ns : List Note) : List (List ℕ) :=
  ns.flatMap (fun n =>
    (g.notes.filter (fun kv => kv.1.name = n.name)).map (fun kv => kv.2))

/-- `self.strings[position]` for each position in turn; `none` models a
`KeyError`. -/
def lookupAll (m : List (ℕ × Note)) : List ℕ → Option (List Note)
  | [] => some []
  | p :: ps =>
    match intDictGet m p, lookupAll m ps with
    | some v, some r => some (v :: r)
    | _, _ => none

/-- `GuitarAnalyzer.get_equivalence_classes(notes)`, fully consumed: the
generator yields `self.strings[position]` — the `Note` stored at each
candidate position — not the position itself. -/
def getEquivalenceClasses (g : GuitarState) (ns : List Note) :
    Option (List Note) :=
  lookupAll g.strings ((candidateClasses g ns).flatten)

/-! ## Basic pitch-engine lemmas -/

theorem getPitch_zero (p : ℝ) : getPitch p 0 = p := by
  simp [getPitch]

theorem getPitch_rpow (p : ℝ) (i : ℤ) :
    getPitch p i = p * (2 : ℝ) ^ ((i : ℝ) / 12) := by
  unfold getPitch
  rw [← Real.rpow_intCast ((2 : ℝ) ^ ((1 : ℝ) / 12)) i, ← Real.rpow_mul (by norm_num),
    one_div, inv_mul_eq_div, mul_comm]

theorem twelfthRoot_ne_zero : ((2 : ℝ) ^ ((1 : ℝ) / 12)) ≠ 0 :=
  ne_of_gt (Real.rpow_pos_of_pos two_pos _)

/-- Auxiliary computation rule for `invert` on a nonempty list. -/
theorem invert_cons (a : ℤ) (t : List ℤ) (n : ℕ) :
    invert (a :: t) (n + 1) = invert (t ++ [a + 12]) n := rfl

theorem invert_eq_rotate (n : ℕ) :
    ∀ l : List ℤ, n ≤ l.length →
      invert l n = some (l.drop n ++ (l.take n).map (· + 12)) := by
  induction n with
  | zero => intro l _; simp [invert]
  | succ n ih =>
    intro l hl
    match l with
    | [] => simp at hl
    | a :: t =>
      have ht : n ≤ t.length := by
        simpa [Nat.succ_le_succ_iff] using hl
      have ht2 : n ≤ (t ++ [a + 12]).length := by
        simp; omega
      rw [invert_cons, ih _ ht2]
      have hdrop : (t ++ [a + 12]).drop n = t.drop n ++ [a + 12] :=
        List.drop_append_of_le_length ht
      have htake : (t ++ [a + 12]).take n = t.take n :=
        List.take_append_of_le_length ht
      rw [hdrop, htake]
      simp

/-! ## Claim theorems: pitch engine -/

/-- **C8.** For every interval list and every `n` not exceeding its length,
`invert(intervals, n)` returns the list with its first `n` elements rotated
to the end, each rotated element increased by 12. -/
theorem c8_invert_rotates (l : List ℤ) (n : ℕ) (h : n ≤ l.length) :
    invert l n = some (l.drop n ++ (l.take n).map (· + 12)) :=
  invert_eq_rotate n l h

/-- Witness for C8 at the spec's example: `invert([0,4,7], 1) = [4, 7, 12]`. -/
theorem c8_invert_rotates_witness :
    1 ≤ ([0, 4, 7] : List ℤ).length ∧ invert [0, 4, 7] 1 = some [4, 7, 12] :=
  ⟨by decide, (c8_invert_rotates [0, 4, 7] 1 (by decide)).trans (by decide)⟩

/-- **C9.** `get_pitch(pitch, interval)` equals `pitch * 2^(interval/12)`;
the round-trip `get_pitch(get_pitch(pitch, interval), -interval)` returns the
pitch exactly in the real-number idealisation; `get_pitch(440.0, 12) = 880.0`. -/
theorem c9_get_pitch_equal_temperament :
    (∀ (p : ℝ) (i : ℤ), getPitch p i = p * (2 : ℝ) ^ ((i : ℝ) / 12)) ∧
    (∀ (p : ℝ) (i : ℤ), getPitch (getPitch p i) (-i) = p) ∧
    getPitch 440 12 = 880 := by
  refine ⟨getPitch_rpow, fun p i => ?_, ?_⟩
  · unfold getPitch
    rw [← mul_assoc, ← zpow_add₀ twelfthRoot_ne_zero]
    simp
  · rw [getPitch_rpow]
    have h12 : (((12 : ℤ) : ℝ) / 12) = 1 := by norm_num
    rw [h12, Real.rpow_one]
    norm_num

/-! ## Claim theorems: theory tables and note equality -/

/-- **C4** (code evaluated at the failing input). `get_mode_intervals` feeds
the stored `major_intervals` list to the destructive `invert`, so a call for
"dorian" rewrites the stored table and a second identical call returns a
different list: the tables are not constant. -/
theorem c4_mode_intervals_mutated :
    getModeIntervals theoryInit "dorian" =
      some ([2, 1, 2, 2, 2, 1, 14],
        ⟨[2, 1, 2, 2, 2, 1, 14], minorIntervals, dimIntervals⟩) ∧
    ([2, 1, 2, 2, 2, 1, 14] : List ℤ) ≠ theoryInit.major ∧
    getModeIntervals ⟨[2, 1, 2, 2, 2, 1, 14], minorIntervals, dimIntervals⟩
        "dorian" =
      some ([1, 2, 2, 2, 1, 14, 14],
        ⟨[1, 2, 2, 2, 1, 14, 14], minorIntervals, dimIntervals⟩) ∧
    ([1, 2, 2, 2, 1, 14, 14] : List ℤ) ≠ ([2, 1, 2, 2, 2, 1, 14] : List ℤ) := by
  refine ⟨by decide, by decide, by decide, by decide⟩

/-- **C6 (counterexample).** Two notes with different names and the same
rounded pitch are equal under `__eq__` yet have different hash inputs, so the
claim "whenever `a == b`, `hash(a) == hash(b)`" fails at
`Note("C", 100)`, `Note("D", 100)`. -/
theorem c6_hash_counterexample :
    noteEq ⟨"C", 100⟩ ⟨"D", 100⟩ ∧
      noteHash ⟨"C", 100⟩ ≠ noteHash ⟨"D", 100⟩ :=
  ⟨rfl, fun h => by
    have h1 := congrArg Prod.fst h
    simp [noteHash] at h1⟩

/-- **C6 (amended).** `a == b` iff the rounded pitches agree, independent of
the names; and equal notes with the *same name* hash identically (the hash
covers the name, so name-differing equal notes need not). -/
theorem c6_note_eq_amended :
    (∀ a b : Note, noteEq a b ↔ pyRound a.pitch = pyRound b.pitch) ∧
    (∀ a b a2 b2 : Note, a.pitch = a2.pitch → b.pitch = b2.pitch →
      (noteEq a b ↔ noteEq a2 b2)) ∧
    (∀ a b : Note, noteEq a b → a.name = b.name → noteHash a = noteHash b) := by
  refine ⟨fun a b => Iff.rfl, ?_, ?_⟩
  · intro a b a2 b2 h1 h2
    simp [noteEq, h1, h2]
  · intro a b he hn
    exact congrArg₂ Prod.mk hn he

/-- Witness for C6 (amended): the hash conjunct applied at two concrete
equal, same-named notes. -/
theorem c6_note_eq_amended_witness :
    noteHash ⟨"C", 100⟩ = noteHash ⟨"C", 100⟩ :=
  c6_note_eq_amended.2.2 ⟨"C", 100⟩ ⟨"C", 100⟩ rfl rfl

/-! ## The selection loop of the optimizer -/

theorem pyMinLoop_some {α : Type} (f : α → ℝ) (lst : ℝ) (b c : α)
    (cs : List α) :
    pyMinLoop f (some (lst, b)) (c :: cs) =
      if f c < lst then pyMinLoop f (some (f c, c)) cs
      else pyMinLoop f (some (lst, b)) cs := by
  simp [pyMinLoop]

/-- The loop started with best `b` returns the first strict minimum of
`b :: cs`: everything enumerated before it has strictly larger measure,
everything after it at least as large. -/
theorem pyMinLoop_first_min {α : Type} (f : α → ℝ) :
    ∀ (cs : List α) (b : α),
      ∃ r l1 l2, pyMinLoop f (some (f b, b)) cs = some (f r, r) ∧
        b :: cs = l1 ++ r :: l2 ∧
        (∀ c ∈ l1, f r < f c) ∧ (∀ c ∈ l2, f r ≤ f c) := by
  intro cs
  induction cs with
  | nil =>
    intro b
    exact ⟨b, [], [], rfl, rfl, by simp, by simp⟩
  | cons c cs ih =>
    intro b
    rw [pyMinLoop_some]
    by_cases hc : f c < f b
    · rw [if_pos hc]
      obtain ⟨r, l1, l2, hres, hsplit, hlt, hle⟩ := ih c
      refine ⟨r, b :: l1, l2, hres, by rw [List.cons_append, ← hsplit], ?_, hle⟩
      intro x hx
      rcases List.mem_cons.1 hx with hx | hx
      · subst hx
        have hrc : f r ≤ f c := by
          match l1, hsplit, hlt with
          | [], hsplit, hlt =>
            rw [List.nil_append] at hsplit
            injection hsplit with h1 _
            exact le_of_eq (by rw [h1])
          | y :: l1t, hsplit, hlt =>
            rw [List.cons_append] at hsplit
            injection hsplit with h1 _
            exact le_of_lt (lt_of_lt_of_eq (hlt y (List.mem_cons_self y l1t)) (congrArg f h1).symm)
        exact lt_of_le_of_lt hrc hc
      · exact hlt x hx
    · rw [if_neg hc]
      have hb : f b ≤ f c := le_of_not_lt hc
      obtain ⟨r, l1, l2, hres, hsplit, hlt, hle⟩ := ih b
      match l1, hsplit, hlt with
      | [], hsplit, hlt =>
        rw [List.nil_append] at hsplit
        injection hsplit with h1 h2
        refine ⟨r, [], c :: cs, hres, by rw [List.nil_append, h1], by simp, ?_⟩
        intro x hx
        rcases List.mem_cons.1 hx with hx | hx
        · subst hx; exact le_of_eq (by rw [h1]) |>.trans hb
        · exact hle x (h2 ▸ hx)
      | y :: l1t, hsplit, hlt =>
        rw [List.cons_append] at hsplit
        injection hsplit with h1 h2
        have hrb : f r < f b :=
          lt_of_lt_of_eq (hlt y (List.mem_cons_self y l1t)) (congrArg f h1).symm
        refine ⟨r, b :: c :: l1t, l2, hres, by simp [h2], ?_, hle⟩
        intro x hx
        rcases List.mem_cons.1 hx with hx | hx
        · subst hx; exact hrb
        rcases List.mem_cons.1 hx with hx | hx
        · subst hx; exact lt_of_lt_of_le hrb hb
        · exact hlt x (List.mem_cons_of_mem y hx)

theorem pyProduct_exists_mem {α : Type} :
    ∀ pl : List (List α), (∀ l ∈ pl, l ≠ []) → ∃ c, c ∈ pyProduct pl := by
  intro pl
  induction pl with
  | nil => exact fun _ => ⟨[], by simp [pyProduct]⟩
  | cons l ls ih =>
    intro hall
    obtain ⟨x, hx⟩ :=
      List.exists_mem_of_ne_nil l (hall l (List.mem_cons_self l ls))
    obtain ⟨c, hc⟩ := ih (fun m hm => hall m (List.mem_cons_of_mem l hm))
    exact ⟨x :: c, List.mem_flatMap.2 ⟨x, hx, List.mem_map.2 ⟨c, hc, rfl⟩⟩⟩

/-- When some candidate list is empty, the cross-product is empty. -/
theorem pyProduct_of_mem_nil {α : Type} :
    ∀ pl : List (List α), [] ∈ pl → pyProduct pl = [] := by
  intro pl
  induction pl with
  | nil => intro h; simp at h
  | cons l ls ih =>
    intro h
    rcases List.mem_cons.1 h with h | h
    · rw [← h]; rfl
    · show l.flatMap _ = []
      rw [ih h]
      simp

/-! ## Claim theorems: fingering optimizer -/

/-- **C1.** For every non-empty list of non-empty candidate lists,
`compute_least_distance_combination` returns a member of the cross-product
(in input order) whose total consecutive-pair distance is minimal, and it is
the first minimiser in `itertools.product` enumeration order: every
combination enumerated before it is strictly worse, every one after it no
better. -/
theorem c1_least_distance_first_min (frets : ℕ) (_hf : 0 < frets)
    (pl : List (List ℕ)) (_hpl : pl ≠ []) (hall : ∀ l ∈ pl, l ≠ []) :
    ∃ r l1 l2, computeLeastDistanceCombination frets pl = some r ∧
      pyProduct pl = l1 ++ r :: l2 ∧
      (∀ c ∈ l1, totalDistance frets r < totalDistance frets c) ∧
      (∀ c ∈ l2, totalDistance frets r ≤ totalDistance frets c) := by
  obtain ⟨c0, hc0⟩ := pyProduct_exists_mem pl hall
  obtain ⟨c0, cs, hprod⟩ := List.exists_cons_of_ne_nil (List.ne_nil_of_mem hc0)
  obtain ⟨r, l1, l2, hres, hsplit, hlt, hle⟩ :=
    pyMinLoop_first_min (totalDistance frets) cs c0
  refine ⟨r, l1, l2, ?_, by rw [hprod, hsplit], hlt, hle⟩
  unfold computeLeastDistanceCombination
  rw [hprod]
  show (pyMinLoop (totalDistance frets)
    (some (totalDistance frets c0, c0)) cs).map _ = _
  rw [hres]
  rfl

/-- Witness for C1 at a concrete two-note input. -/
theorem c1_least_distance_first_min_witness :
    0 < 24 ∧ ([[0], [26]] : List (List ℕ)) ≠ [] ∧
      (∀ l ∈ ([[0], [26]] : List (List ℕ)), l ≠ []) ∧
      (∃ r l1 l2,
        computeLeastDistanceCombination 24 [[0], [26]] = some r ∧
        pyProduct [[0], [26]] = l1 ++ r :: l2 ∧
        (∀ c ∈ l1, totalDistance 24 r < totalDistance 24 c) ∧
        (∀ c ∈ l2, totalDistance 24 r ≤ totalDistance 24 c)) :=
  ⟨by decide, by decide, by decide,
    c1_least_distance_first_min 24 (by decide) [[0], [26]] (by decide)
      (by decide)⟩

/-- **C2** (code evaluated at the failing input).  With an empty candidate
set the cross-product is empty, so `compute_least_distance_combination`
returns `None` — but `get_finger_combination` then iterates over that `None`
and dies with a `TypeError` (modelled by `none`) instead of yielding an empty
sequence. -/
theorem c2_empty_candidate_set (frets : ℕ) (pl : List (List ℕ))
    (h : [] ∈ pl) :
    computeLeastDistanceCombination frets pl = none ∧
      getFingerCombination frets pl = none := by
  have hprod := pyProduct_of_mem_nil pl h
  have hc : computeLeastDistanceCombination frets pl = none := by
    unfold computeLeastDistanceCombination
    rw [hprod]
    rfl
  exact ⟨hc, by unfold getFingerCombination; rw [hc]; rfl⟩

/-- Witness for C2 at the one-empty-candidate-list input. -/
theorem c2_empty_candidate_set_witness :
    ([] ∈ ([[]] : List (List ℕ))) ∧
      computeLeastDistanceCombination 24 [[]] = none ∧
      getFingerCombination 24 [[]] = none :=
  ⟨by decide, c2_empty_candidate_set 24 [[]] (by decide)⟩

/-! ## Invalid note names -/

theorem pyIndex_eq_none_iff :
    ∀ (l : List String) (x : String), pyIndex l x = none ↔ x ∉ l := by
  intro l x
  induction l with
  | nil => simp [pyIndex]
  | cons a t ih =>
    by_cases h : a = x
    · simp [pyIndex, h]
    · simp only [pyIndex, if_neg h, List.mem_cons]
      rw [Option.map_eq_none', ih]
      constructor
      · intro hn hor
        rcases hor with hor | hor
        · exact h hor.symm
        · exact hn hor
      · intro hn hx
        exact hn (Or.inr hx)

/-- If any tuning entry has a name outside the chromatic table, the
`Guitar._initiate` loop raises. -/
theorem guitarStringsGo_eq_none (frets : ℕ) :
    ∀ (ts : List Note) (s : ℕ),
      (∃ t ∈ ts, pyIndex chromatic t.name = none) →
        guitarStringsGo frets s ts = none := by
  intro ts
  induction ts with
  | nil => intro s h; simp at h
  | cons t ts ih =>
    intro s h
    show (match stringBlock frets s t, guitarStringsGo frets (s + 1) ts with
      | some b, some r => some (b ++ r)
      | _, _ => none) = none
    obtain ⟨t0, ht0, hnone⟩ := h
    rcases List.mem_cons.1 ht0 with rfl | ht0
    · rw [show stringBlock frets s t0 = none by
        unfold stringBlock; rw [hnone]; rfl]
    · rw [ih (s + 1) ⟨t0, ht0, hnone⟩]
      cases stringBlock frets s t <;> rfl

/-- **C10.** A starting note name outside the 12-entry chromatic table makes
`note_stream` raise a `ValueError` (here: `none`), and consequently a Piano
with such a low note, a Guitar with such a tuning entry, and a Scale with
such a base note all fail to construct instead of producing an object. -/
theorem c10_invalid_name_raises (name : String) (h : name ∉ chromatic)
    (n numKeys frets : ℕ) (p : ℝ) (intervals : List ℤ)
    (tpre tpost : List Note) :
    noteStream name n = none ∧
      pianoInit numKeys ⟨name, p⟩ = none ∧
      guitarInit frets (tpre ++ ⟨name, p⟩ :: tpost) = none ∧
      generateScale ⟨name, p⟩ intervals = none := by
  have hidx : pyIndex chromatic name = none := (pyIndex_eq_none_iff _ _).2 h
  have hstream : ∀ m : ℕ, noteStream name m = none := by
    intro m; unfold noteStream; rw [hidx]; rfl
  refine ⟨hstream n, ?_, ?_, ?_⟩
  · unfold pianoInit
    rw [show (⟨name, p⟩ : Note).name = name from rfl, hstream numKeys]
    rfl
  · unfold guitarInit guitarStrings
    rw [guitarStringsGo_eq_none frets _ 0
      ⟨⟨name, p⟩, by simp, hidx⟩]
    rfl
  · unfold generateScale
    rw [show (⟨name, p⟩ : Note).name = name from rfl, hidx]
    rfl

/-- Witness for C10 at the name `"H"`. -/
theorem c10_invalid_name_raises_witness :
    ("H" ∉ chromatic) ∧
      (noteStream "H" 12 = none ∧
        pianoInit 88 ⟨"H", 27.5⟩ = none ∧
        guitarInit 24 ([] ++ ⟨"H", 27.5⟩ :: []) = none ∧
        generateScale ⟨"H", 27.5⟩ [2, 2, 1, 2, 2, 2, 1] = none) :=
  ⟨by decide,
    c10_invalid_name_raises "H" (by decide) 12 88 24 27.5 [2, 2, 1, 2, 2, 2, 1]
      [] []⟩

/-! ## Dict lookup characterisation -/

open Classical in
theorem noteDictGet_cons {V : Type} (k : Note) (v : V) (t : List (Note × V))
    (q : Note) :
    noteDictGet ((k, v) :: t) q =
      if noteKeyMatch k q then some v else noteDictGet t q := by
  simp [noteDictGet]

theorem noteDictGet_eq_none_iff {V : Type} :
    ∀ (m : List (Note × V)) (q : Note),
      noteDictGet m q = none ↔ ∀ kv ∈ m, ¬ noteKeyMatch kv.1 q := by
  intro m q
  induction m with
  | nil => simp [noteDictGet]
  | cons kv t ih =>
    obtain ⟨k, v⟩ := kv
    rw [noteDictGet_cons]
    by_cases h : noteKeyMatch k q
    · rw [if_pos h]
      constructor
      · intro hsome; exact absurd hsome (by simp)
      · intro hall; exact absurd h (hall (k, v) (List.mem_cons_self _ _))
    · rw [if_neg h, ih]
      constructor
      · intro hall kv hkv
        rcases List.mem_cons.1 hkv with rfl | hkv
        · exact h
        · exact hall kv hkv
      · intro hall kv hkv
        exact hall kv (List.mem_cons_of_mem _ hkv)

theorem noteDictGet_eq_some_exists {V : Type} :
    ∀ (m : List (Note × V)) (q : Note) (v : V),
      noteDictGet m q = some v → ∃ k, (k, v) ∈ m ∧ noteKeyMatch k q := by
  intro m q
  induction m with
  | nil => intro v hv; simp [noteDictGet] at hv
  | cons kv t ih =>
    obtain ⟨k, v0⟩ := kv
    intro v hv
    rw [noteDictGet_cons] at hv
    by_cases h : noteKeyMatch k q
    · rw [if_pos h] at hv
      injection hv with hv
      exact ⟨k, by rw [hv]; exact List.mem_cons_self _ _, h⟩
    · rw [if_neg h] at hv
      obtain ⟨k2, hmem, hm⟩ := ih v hv
      exact ⟨k2, List.mem_cons_of_mem _ hmem, hm⟩

/-! ## A one-string, one-fret guitar, fully evaluated -/

/-- Construction of a minimal guitar: one string tuned to E (82.41 Hz) with a
single fret position. -/
theorem tinyGuitar_eq :
    guitarInit 1 [⟨"E", 82.41⟩] =
      some ⟨1, [(0, ⟨"E", 82.41⟩)], [(⟨"E", 82.41⟩, [0])]⟩ := by
  have hp : getPitch 82.41 ((0 : ℕ) : ℤ) = 82.41 := by
    rw [Nat.cast_zero]; exact getPitch_zero _
  have h0 : guitarInit 1 [⟨"E", 82.41⟩] =
      some ⟨1, [(0, ⟨"E", getPitch 82.41 ((0 : ℕ) : ℤ)⟩)],
        [(⟨"E", getPitch 82.41 ((0 : ℕ) : ℤ)⟩, [0])]⟩ := rfl
  rw [h0, hp]

/-! ## Claim theorems: `play` and `get_equivalence_classes` -/

/-- **C5 (counterexample).** On the one-string guitar, the stored note E
(82.41 Hz) has the same rounded pitch as the query `Note("F", 82.41)`, yet
`play` returns `[None]`: the dict lookup also compares the *name* through the
hash, so rounded-pitch equality alone does not make a note "mapped". -/
theorem c5_play_counterexample :
    ∃ g, guitarInit 1 [⟨"E", 82.41⟩] = some g ∧
      (∃ kv ∈ g.notes, pyRound kv.1.pitch = pyRound (82.41 : ℝ)) ∧
      guitarPlay g [⟨"F", 82.41⟩] = [none] := by
  refine ⟨⟨1, [(0, ⟨"E", 82.41⟩)], [(⟨"E", 82.41⟩, [0])]⟩, tinyGuitar_eq,
    ⟨(⟨"E", 82.41⟩, [0]), List.mem_singleton.2 rfl, rfl⟩, ?_⟩
  show notesPlay [(⟨"E", (82.41 : ℝ)⟩, ([0] : List ℕ))] [⟨"F", 82.41⟩] = [none]
  unfold notesPlay
  simp only [List.map]
  rw [noteDictGet_cons, if_neg]
  · rfl
  · rintro ⟨hn, _⟩
    exact absurd hn (by decide)

/-- **C5 (amended).** `play` returns one entry per input note in order (the
i-th output is the dict lookup of the i-th note) and never raises; a lookup
returns the stored positions exactly when some stored key agrees with the
query on *both* name and rounded pitch (the hash involves the name), and
`None` otherwise. -/
theorem c5_play_amended {V : Type} (m : List (Note × V)) (ns : List Note) :
    (notesPlay m ns).length = ns.length ∧
    (∀ i : ℕ, (notesPlay m ns)[i]? = (ns[i]?).map (noteDictGet m)) ∧
    (∀ q, noteDictGet m q = none ↔ ∀ kv ∈ m, ¬ noteKeyMatch kv.1 q) ∧
    (∀ q v, noteDictGet m q = some v → ∃ k, (k, v) ∈ m ∧ noteKeyMatch k q) ∧
    (∀ g : GuitarState, guitarPlay g ns = notesPlay g.notes ns) ∧
    (∀ p : PianoState, pianoPlay p ns = notesPlay p.notes ns) := by
  refine ⟨by simp [notesPlay], fun i => ?_, noteDictGet_eq_none_iff m,
    noteDictGet_eq_some_exists m, fun g => rfl, fun p => rfl⟩
  simp [notesPlay]

/-- Witness for C5 (amended) at the one-string guitar's notes map and a
single query note. -/
theorem c5_play_amended_witness :
    (notesPlay [(⟨"E", (82.41 : ℝ)⟩, ([0] : List ℕ))] [⟨"F", 82.41⟩]).length =
        ([⟨"F", 82.41⟩] : List Note).length ∧
    (∀ i : ℕ,
      (notesPlay [(⟨"E", (82.41 : ℝ)⟩, ([0] : List ℕ))] [⟨"F", 82.41⟩])[i]? =
        (([⟨"F", 82.41⟩] : List Note)[i]?).map
          (noteDictGet [(⟨"E", (82.41 : ℝ)⟩, ([0] : List ℕ))])) ∧
    (∀ q, noteDictGet [(⟨"E", (82.41 : ℝ)⟩, ([0] : List ℕ))] q = none ↔
      ∀ kv ∈ [(⟨"E", (82.41 : ℝ)⟩, ([0] : List ℕ))], ¬ noteKeyMatch kv.1 q) ∧
    (∀ q v, noteDictGet [(⟨"E", (82.41 : ℝ)⟩, ([0] : List ℕ))] q = some v →
      ∃ k, (k, v) ∈ [(⟨"E", (82.41 : ℝ)⟩, ([0] : List ℕ))] ∧
        noteKeyMatch k q) ∧
    (∀ g : GuitarState,
      guitarPlay g [⟨"F", 82.41⟩] = notesPlay g.notes [⟨"F", 82.41⟩]) ∧
    (∀ p : PianoState,
      pianoPlay p [⟨"F", 82.41⟩] = notesPlay p.notes [⟨"F", 82.41⟩]) :=
  c5_play_amended [(⟨"E", (82.41 : ℝ)⟩, ([0] : List ℕ))] [⟨"F", 82.41⟩]

/-- **C3** (code evaluated at the failing input).  On the one-string guitar
the candidate positions for the target `Note("E", 82.41)` are `[[0]]`, but
`get_equivalence_classes` yields `self.strings[position]` — the stored
`Note` objects — instead of the integer positions its signature and
docstring promise. -/
theorem c3_equivalence_classes_yield_notes :
    ∃ g, guitarInit 1 [⟨"E", 82.41⟩] = some g ∧
      candidateClasses g [⟨"E", 82.41⟩] = [[0]] ∧
      getEquivalenceClasses g [⟨"E", 82.41⟩] = some [⟨"E", 82.41⟩] :=
  ⟨_, tinyGuitar_eq, rfl, rfl⟩

/-! ## Structure of the guitar position map -/

theorem blockList_map_fst (frets s i : ℕ) (p : ℝ) :
    (blockList frets s i p).map Prod.fst =
      (List.range frets).map (fun f => s * frets + f) := by
  simp [blockList, List.map_map]

theorem blockList_mem_fst {frets s i : ℕ} {p : ℝ} {kv : ℕ × Note}
    (h : kv ∈ blockList frets s i p) :
    ∃ f, f < frets ∧ kv.1 = s * frets + f := by
  obtain ⟨f, hf, rfl⟩ := List.mem_map.1 h
  exact ⟨f, List.mem_range.1 hf, rfl⟩

theorem guitarStringsGo_map_fst (frets : ℕ) :
    ∀ (ts : List Note) (s : ℕ) (l : List (ℕ × Note)),
      guitarStringsGo frets s ts = some l →
        l.map Prod.fst =
          (List.range (ts.length * frets)).map (fun f => s * frets + f) := by
  intro ts
  induction ts with
  | nil =>
    intro s l h
    have h2 : some ([] : List (ℕ × Note)) = some l := h
    injection h2 with h2
    subst h2
    simp
  | cons t ts ih =>
    intro s l h
    rw [show guitarStringsGo frets s (t :: ts) =
        (match stringBlock frets s t, guitarStringsGo frets (s + 1) ts with
          | some b, some r => some (b ++ r)
          | _, _ => none) from rfl] at h
    cases hb : stringBlock frets s t with
    | none => rw [hb] at h; exact Option.noConfusion h
    | some b =>
      cases hr : guitarStringsGo frets (s + 1) ts with
      | none => rw [hb, hr] at h; exact Option.noConfusion h
      | some r =>
        rw [hb, hr] at h
        injection h with h
        subst h
        obtain ⟨i, _, hbl⟩ := Option.map_eq_some'.1 hb
        subst hbl
        rw [List.map_append, blockList_map_fst, ih (s + 1) r hr]
        have hlen : (t :: ts).length * frets = frets + ts.length * frets := by
          simp [List.length_cons]; ring
        rw [hlen, List.range_add, List.map_append, List.map_map]
        congr 1
        apply List.map_congr_left
        intro x _
        simp [Function.comp]
        ring

theorem intDictGet_cons (k : ℕ) (v : Note) (t : List (ℕ × Note)) (q : ℕ) :
    intDictGet ((k, v) :: t) q = if k = q then some v else intDictGet t q := rfl

theorem intDictGet_append_some (m1 m2 : List (ℕ × Note)) (q : ℕ) (v : Note)
    (h : intDictGet m1 q = some v) : intDictGet (m1 ++ m2) q = some v := by
  induction m1 with
  | nil => exact absurd h (by simp [intDictGet])
  | cons kv t ih =>
    obtain ⟨k, v0⟩ := kv
    rw [List.cons_append, intDictGet_cons]
    rw [intDictGet_cons] at h
    by_cases hk : k = q
    · rwa [if_pos hk] at h ⊢
    · rw [if_neg hk] at h ⊢
      exact ih h

theorem intDictGet_append_none (m1 m2 : List (ℕ × Note)) (q : ℕ)
    (h : ∀ kv ∈ m1, kv.1 ≠ q) :
    intDictGet (m1 ++ m2) q = intDictGet m2 q := by
  induction m1 with
  | nil => rfl
  | cons kv t ih =>
    obtain ⟨k, v0⟩ := kv
    have hk : k ≠ q := h (k, v0) (List.mem_cons_self _ _)
    rw [List.cons_append, intDictGet_cons, if_neg hk]
    exact ih (fun kv hkv => h kv (List.mem_cons_of_mem _ hkv))

/-- The open-string position `s * frets` of a block holds the open note. -/
theorem intDictGet_blockList_head (frets s i : ℕ) (p : ℝ) (hf : 0 < frets) :
    intDictGet (blockList frets s i p) (s * frets) =
      some ⟨chromatic.getD ((i + 0) % 12) "", getPitch p ((0 : ℕ) : ℤ)⟩ := by
  match frets, hf with
  | n + 1, _ =>
    unfold blockList
    rw [List.range_succ_eq_map]
    rw [List.map_cons, intDictGet_cons, if_pos (by omega)]

/-! ## Partition of positions into equivalence classes -/

open Classical in
theorem noteDictInsert_cons (k0 : Note) (v0 : List ℕ)
    (t : List (Note × List ℕ)) (k : Note) (p : ℕ) :
    noteDictInsert ((k0, v0) :: t) k p =
      if noteKeyMatch k0 k then (k0, v0 ++ [p]) :: t
      else (k0, v0) :: noteDictInsert t k p := by
  simp [noteDictInsert]

theorem noteDictInsert_flatten (m : List (Note × List ℕ)) (k : Note) (p : ℕ) :
    ((noteDictInsert m k p).map Prod.snd).flatten.Perm
      ((m.map Prod.snd).flatten ++ [p]) := by
  induction m with
  | nil => simp [noteDictInsert]
  | cons kv t ih =>
    obtain ⟨k0, v0⟩ := kv
    rw [noteDictInsert_cons]
    by_cases h : noteKeyMatch k0 k
    · rw [if_pos h]
      simp only [List.map_cons, List.flatten_cons]
      rw [List.append_assoc, List.append_assoc]
      exact List.Perm.append_left v0 List.perm_append_comm
    · rw [if_neg h]
      simp only [List.map_cons, List.flatten_cons]
      rw [List.append_assoc]
      exact List.Perm.append_left v0 ih

theorem buildNotesAux_flatten :
    ∀ (ps : List (ℕ × Note)) (m : List (Note × List ℕ)),
      ((ps.foldl (fun m pn => noteDictInsert m pn.2 pn.1) m).map
          Prod.snd).flatten.Perm
        ((m.map Prod.snd).flatten ++ ps.map Prod.fst) := by
  intro ps
  induction ps with
  | nil => intro m; simp
  | cons pn t ih =>
    intro m
    simp only [List.foldl_cons]
    refine ((ih (noteDictInsert m pn.2 pn.1)).trans ?_)
    refine ((noteDictInsert_flatten m pn.2 pn.1).append_right _).trans ?_
    rw [List.append_assoc]
    simp

theorem buildNotes_flatten (ps : List (ℕ × Note)) :
    ((buildNotes ps).map Prod.snd).flatten.Perm (ps.map Prod.fst) := by
  simpa [buildNotes] using buildNotesAux_flatten ps []

/-! ## The standard 6-string, 24-fret guitar -/

/-- The `strings` assignments of the standard guitar, one block per string;
the chromatic indices 4, 9, 2, 7, 11, 4 are those of E, A, D, G, B, E. -/
noncomputable def stdBlocks : List (ℕ × Note) :=
  blockList 24 0 4 82.41 ++ (blockList 24 1 9 110.00 ++
    (blockList 24 2 2 146.83 ++ (blockList 24 3 7 196.00 ++
      (blockList 24 4 11 246.94 ++ (blockList 24 5 4 329.63 ++ [])))))

theorem stdGuitarStrings_eq : guitarStrings 24 stdTuning = some stdBlocks := rfl

theorem stdGuitar_eq :
    guitarInit 24 stdTuning = some ⟨24, stdBlocks, buildNotes stdBlocks⟩ := by
  unfold guitarInit
  rw [stdGuitarStrings_eq]
  rfl

/-- **C7.** The standard 6-string 24-fret guitar has exactly the dense
position keys `[0, 144)` in its position → note map; flattening the
equivalence classes of the note → positions map gives each of those 144
positions exactly once; position 0 holds the open low E (82.41 Hz) and
position 24 the second tuning note A (110.00 Hz). -/
theorem c7_standard_guitar_maps :
    ∃ g, guitarInit 24 stdTuning = some g ∧
      g.strings.length = 144 ∧
      g.strings.map Prod.fst = List.range 144 ∧
      ((g.notes.map Prod.snd).flatten).Perm (List.range 144) ∧
      intDictGet g.strings 0 = some ⟨"E", 82.41⟩ ∧
      intDictGet g.strings 24 = some ⟨"A", 110.00⟩ := by
  have hmap : stdBlocks.map Prod.fst = List.range 144 := by
    have h := guitarStringsGo_map_fst 24 stdTuning 0 stdBlocks
      stdGuitarStrings_eq
    simpa [stdTuning] using h
  have hlen : stdBlocks.length = 144 := by
    have h := congrArg List.length hmap
    simpa using h
  have hperm : (((buildNotes stdBlocks).map Prod.snd).flatten).Perm
      (List.range 144) := by
    have h := buildNotes_flatten stdBlocks
    rwa [hmap] at h
  have hgE : getPitch (82.41 : ℝ) ((0 : ℕ) : ℤ) = 82.41 := by
    rw [show ((0 : ℕ) : ℤ) = 0 from rfl]
    exact getPitch_zero _
  have hgA : getPitch (110.00 : ℝ) ((0 : ℕ) : ℤ) = 110.00 := by
    rw [show ((0 : ℕ) : ℤ) = 0 from rfl]
    exact getPitch_zero _
  have hvE : (⟨chromatic.getD ((4 + 0) % 12) "",
      getPitch (82.41 : ℝ) ((0 : ℕ) : ℤ)⟩ : Note) = ⟨"E", 82.41⟩ := by
    rw [hgE]; rfl
  have hvA : (⟨chromatic.getD ((9 + 0) % 12) "",
      getPitch (110.00 : ℝ) ((0 : ℕ) : ℤ)⟩ : Note) = ⟨"A", 110.00⟩ := by
    rw [hgA]; rfl
  have h0 : intDictGet stdBlocks 0 = some ⟨"E", 82.41⟩ := by
    unfold stdBlocks
    refine intDictGet_append_some _ _ _ _ ?_
    exact (intDictGet_blockList_head 24 0 4 82.41 (by norm_num)).trans
      (congrArg some hvE)
  have h24 : intDictGet stdBlocks 24 = some ⟨"A", 110.00⟩ := by
    unfold stdBlocks
    rw [intDictGet_append_none _ _ _ (fun kv hkv => by
      obtain ⟨f, hf, hfst⟩ := blockList_mem_fst hkv
      omega)]
    refine intDictGet_append_some _ _ _ _ ?_
    exact (intDictGet_blockList_head 24 1 9 110.00 (by norm_num)).trans
      (congrArg some hvA)
  exact ⟨⟨24, stdBlocks, buildNotes stdBlocks⟩, stdGuitar_eq, hlen, hmap,
    hperm, h0, h24⟩

end PyMusic
